import Mathlib

/-!
Verification of the multi-task RL engine in `main.py` (class `MTRL`).

The numeric tensors of the source are embedded as functions `Fin _ → ℚ`.
Torch's `Softmax` applies the real exponential; the embedding is
parameterized by an arbitrary map `e : ℚ → ℚ` standing for that
exponential, and every statement proved here holds for every `e`.
The unbounded `while` loops of the source are embedded with explicit
fuel, returning `none` when the fuel runs out.
-/

namespace MTRL

/-- Dot product of two vectors, `x @ y` in torch. -/
def dot {n : ℕ} (x y : Fin n → ℚ) : ℚ := ∑ i, x i * y i

/-- Largest entry of a (nonempty) vector, `t.max(dim=0)[0]` in torch. -/
def fmax {n : ℕ} (f : Fin (n + 1) → ℚ) : ℚ :=
  Finset.univ.sup' Finset.univ_nonempty f

/-- Softmax of a vector, `torch.nn.Softmax` with the exponential abstracted
as `e`. -/
def softmaxWith {n : ℕ} (e : ℚ → ℚ) (x : Fin n → ℚ) : Fin n → ℚ :=
  fun i => e (x i) / ∑ j, e (x j)

theorem le_fmax {n : ℕ} (f : Fin (n + 1) → ℚ) (i : Fin (n + 1)) : f i ≤ fmax f :=
  Finset.le_sup' f (Finset.mem_univ i)

theorem fmax_exists_eq {n : ℕ} (f : Fin (n + 1) → ℚ) : ∃ i, fmax f = f i := by
  obtain ⟨i, _, h⟩ := Finset.exists_mem_eq_sup' (Finset.univ_nonempty) f
  exact ⟨i, h⟩

theorem fmax_fin_one (f : Fin 1 → ℚ) : fmax f = f 0 := by
  simp [fmax, Finset.univ_unique, Finset.sup'_singleton]

/-- The data held by an `MTRL` instance: transition tensor `T` of shape
`(NS, NA, NS)`, state features `phi` of shape `(NS, NP)`, the terminal
mask, and the task sets `Wtrain` (of size `Ntrain`) and `Wtest`. -/
structure Model (NS NA NP Ntrain : ℕ) where
  T : Fin NS → Fin NA → Fin NS → ℚ
  phi : Fin NS → Fin NP → ℚ
  is_terminal : Fin NS → Bool
  Wtrain : Fin Ntrain → Fin NP → ℚ
  Wtest : List (Fin NP → ℚ)

/-!  ### The fuelled `while delta >= threshold` loop

Both `value_iteration` and the successor-feature iteration in
`sfgpi_train` run `delta = threshold; while delta >= threshold: delta = 0;
<sweep>`, counting iterations.  `loopUntil` is that loop with fuel: the
loop state is `st`, each sweep maps `st` to a new state together with its
`delta`, and the iteration count is threaded through. -/

def loopUntil {σ : Type} (step : σ → σ × ℚ) (threshold : ℚ) :
    ℕ → ℚ → σ → ℕ → Option (σ × ℕ)
  | 0, δ, st, c => if δ < threshold then some (st, c) else none
  | fuel + 1, δ, st, c =>
    if δ < threshold then some (st, c)
    else loopUntil step threshold fuel (step st).2 (step st).1 (c + 1)

/-- State and `delta` after `k` sweeps, starting from state `st` with
`delta = δ`. -/
def sweepSeq {σ : Type} (step : σ → σ × ℚ) (st : σ) (δ : ℚ) : ℕ → σ × ℚ
  | 0 => (st, δ)
  | k + 1 => step (sweepSeq step st δ k).1

theorem sweepSeq_shift {σ : Type} (step : σ → σ × ℚ) (st : σ) (δ : ℚ) (k : ℕ) :
    sweepSeq step st δ (k + 1) = sweepSeq step (step st).1 (step st).2 k := by
  induction k with
  | zero => simp [sweepSeq]
  | succ k ih => rw [sweepSeq, ih, sweepSeq]

/-- If the running `delta` is already below the threshold the loop returns
at once, whatever fuel is left. -/
theorem loopUntil_of_lt {σ : Type} (step : σ → σ × ℚ) (t : ℚ) (fuel : ℕ)
    (δ : ℚ) (st : σ) (c : ℕ) (h : δ < t) :
    loopUntil step t fuel δ st c = some (st, c) := by
  cases fuel <;> simp [loopUntil, h]

/-- The fuelled loop returns `some` exactly on the run that performs sweeps
as long as each sweep's `delta` stays at or above the threshold and stops
with the first sweep whose `delta` drops below it. -/
theorem loopUntil_eq_some_iff {σ : Type} (step : σ → σ × ℚ) (t : ℚ) :
    ∀ (fuel : ℕ) (δ : ℚ) (st : σ) (c : ℕ) (out : σ × ℕ),
      loopUntil step t fuel δ st c = some out ↔
        ∃ j, j ≤ fuel ∧ out = ((sweepSeq step st δ j).1, c + j) ∧
          (∀ k, k < j → t ≤ (sweepSeq step st δ k).2) ∧
          (sweepSeq step st δ j).2 < t := by
  intro fuel
  induction fuel with
  | zero =>
    intro δ st c out
    rw [loopUntil]
    by_cases h : δ < t
    · rw [if_pos h]
      constructor
      · intro h2
        injection h2 with h2
        exact ⟨0, le_refl 0, by simp [sweepSeq, ← h2], by omega,
          by simpa [sweepSeq] using h⟩
      · rintro ⟨j, hj, hout, _, _⟩
        interval_cases j
        simp only [sweepSeq, Nat.add_zero] at hout
        rw [hout]
    · rw [if_neg h]
      constructor
      · intro h2
        exact absurd h2 (by simp)
      · rintro ⟨j, hj, _, _, hend⟩
        interval_cases j
        simp only [sweepSeq] at hend
        exact absurd hend h
  | succ fuel ih =>
    intro δ st c out
    rw [loopUntil]
    by_cases h : δ < t
    · rw [if_pos h]
      constructor
      · intro h2
        injection h2 with h2
        exact ⟨0, Nat.zero_le _, by simp [sweepSeq, ← h2], by omega,
          by simpa [sweepSeq] using h⟩
      · rintro ⟨j, hj, hout, hlt, hend⟩
        have hj0 : j = 0 := by
          by_contra hne
          have h0 := hlt 0 (Nat.pos_of_ne_zero hne)
          simp only [sweepSeq] at h0
          exact absurd h h0.not_lt
        subst hj0
        simp only [sweepSeq, Nat.add_zero] at hout
        rw [hout]
    · rw [if_neg h]
      rw [ih (step st).2 (step st).1 (c + 1) out]
      constructor
      · rintro ⟨j, hj, hout, hlt, hend⟩
        refine ⟨j + 1, Nat.succ_le_succ hj, ?_, ?_, ?_⟩
        · rw [sweepSeq_shift]
          rw [hout]
          have : c + 1 + j = c + (j + 1) := by omega
          rw [this]
        · intro k hk
          cases k with
          | zero => simpa [sweepSeq] using le_of_not_lt h
          | succ k2 => rw [sweepSeq_shift]; exact hlt k2 (by omega)
        · rw [sweepSeq_shift]; exact hend
      · rintro ⟨j, hj, hout, hlt, hend⟩
        cases j with
        | zero =>
          simp only [sweepSeq] at hend
          exact absurd hend h
        | succ j2 =>
          refine ⟨j2, by omega, ?_, ?_, ?_⟩
          · rw [← sweepSeq_shift]
            rw [hout]
            have : c + (j2 + 1) = c + 1 + j2 := by omega
            rw [this]
          · intro k hk
            rw [← sweepSeq_shift]
            exact hlt (k + 1) (by omega)
          · rw [← sweepSeq_shift]; exact hend

/-!  ### `value_iteration`

`MTRL.value_iteration(w, threshold, gamma, beta)` (main.py lines 302-324).
The per-state loop body recomputes `vals = phi @ w + gamma * V` from the
current, partially updated `V`, so a sweep is an in-place (Gauss-Seidel)
fold over the states in ascending order. -/

/-- Initial value function: `V[i] = phi[i] @ w` at terminal states and `0`
elsewhere (lines 304-308). -/
def viInit {NS NA NP Ntrain : ℕ} (m : Model NS NA NP Ntrain) (w : Fin NP → ℚ) :
    Fin NS → ℚ :=
  fun s => if m.is_terminal s then dot (m.phi s) w else 0

/-- One execution of the body of `for s in range(self.NS)` (lines 315-322):
from the accumulated `((V, pi), delta)` process state `s`, computing
`vals = phi @ w + gamma * V` from the current `V`, `Q = T[s] @ vals`,
`pi[s] = softmax(beta * Q)`, `V[s] = Q.max(dim=0)[0]` and
`delta = max(delta, |V[s] - curr_state|)`. -/
def viUpdate {NS na NP Ntrain : ℕ} (m : Model NS (na + 1) NP Ntrain)
    (e : ℚ → ℚ) (w : Fin NP → ℚ) (γ β : ℚ)
    (acc : ((Fin NS → ℚ) × (Fin NS → Fin (na + 1) → ℚ)) × ℚ) (s : Fin NS) :
    ((Fin NS → ℚ) × (Fin NS → Fin (na + 1) → ℚ)) × ℚ :=
  let V := acc.1.1
  let vals : Fin NS → ℚ := fun s2 => dot (m.phi s2) w + γ * V s2
  let Q : Fin (na + 1) → ℚ := fun a => ∑ s2, m.T s a s2 * vals s2
  ((Function.update V s (fmax Q),
    Function.update acc.1.2 s (softmaxWith e (fun a => β * Q a))),
   max acc.2 |fmax Q - V s|)

/-- One full sweep of `value_iteration` over the states listed in `order`
(the source iterates `for s in range(self.NS)`, i.e. `List.finRange NS`),
starting with `delta = 0` and returning the new `(V, pi)` together with the
sweep's `delta`. -/
def viSweepOrder {NS na NP Ntrain : ℕ} (m : Model NS (na + 1) NP Ntrain)
    (e : ℚ → ℚ) (w : Fin NP → ℚ) (γ β : ℚ) (order : List (Fin NS))
    (vp : (Fin NS → ℚ) × (Fin NS → Fin (na + 1) → ℚ)) :
    ((Fin NS → ℚ) × (Fin NS → Fin (na + 1) → ℚ)) × ℚ :=
  order.foldl (viUpdate m e w γ β) (vp, 0)

/-- `value_iteration` with the states of each sweep processed in the given
`order`; the source's order is `List.finRange NS`.  Returns the final
`(V, pi)` and the number of executed sweeps (the source's `count`), or
`none` if `fuel` sweeps do not reach convergence. -/
def value_iterationOrder {NS na NP Ntrain : ℕ} (m : Model NS (na + 1) NP Ntrain)
    (e : ℚ → ℚ) (w : Fin NP → ℚ) (threshold γ β : ℚ) (order : List (Fin NS))
    (fuel : ℕ) :
    Option ((((Fin NS → ℚ) × (Fin NS → Fin (na + 1) → ℚ))) × ℕ) :=
  loopUntil (viSweepOrder m e w γ β order) threshold fuel threshold
    (viInit m w, fun _ _ => 0) 0

/-- `MTRL.value_iteration` (lines 302-324): sweeps in ascending state
order. -/
def value_iteration {NS na NP Ntrain : ℕ} (m : Model NS (na + 1) NP Ntrain)
    (e : ℚ → ℚ) (w : Fin NP → ℚ) (threshold γ β : ℚ) (fuel : ℕ) :
    Option ((((Fin NS → ℚ) × (Fin NS → Fin (na + 1) → ℚ))) × ℕ) :=
  value_iterationOrder m e w threshold γ β (List.finRange NS) fuel

/-- The `(V, pi)` state and sweep `delta` after `n` sweeps of
`value_iteration`. -/
def viSweeps {NS na NP Ntrain : ℕ} (m : Model NS (na + 1) NP Ntrain)
    (e : ℚ → ℚ) (w : Fin NP → ℚ) (threshold γ β : ℚ) (n : ℕ) :
    (((Fin NS → ℚ) × (Fin NS → Fin (na + 1) → ℚ))) × ℚ :=
  sweepSeq (viSweepOrder m e w γ β (List.finRange NS))
    (viInit m w, fun _ _ => 0) threshold n

/-- Claim C4: `value_iteration(w, threshold, gamma, beta)` initializes
`V(s)` to `phi(s)·w` for terminal `s` and `0` elsewhere; each sweep, for
every state `s`, computes `Q(s,·) = T[s] @ (phi@w + gamma*V)`, sets
`pi(s) = softmax(beta*Q(s,·))` and `V(s) = max_a Q(s,a)`; and it repeats
full sweeps exactly until the maximum per-state absolute change of `V`
over a sweep is below the threshold, returning that `V` and `pi` (with the
sweep count). -/
theorem value_iteration_loop_spec {NS na NP Ntrain : ℕ}
    (m : Model NS (na + 1) NP Ntrain) (e : ℚ → ℚ) (w : Fin NP → ℚ)
    (threshold γ β : ℚ) (fuel : ℕ)
    (out : (((Fin NS → ℚ) × (Fin NS → Fin (na + 1) → ℚ))) × ℕ) :
    (viInit m w = fun s => if m.is_terminal s then dot (m.phi s) w else 0) ∧
    (∀ acc s, viUpdate m e w γ β acc s =
      ((Function.update acc.1.1 s
          (fmax (fun a => ∑ s2, m.T s a s2 * (dot (m.phi s2) w + γ * acc.1.1 s2))),
        Function.update acc.1.2 s
          (softmaxWith e (fun a =>
            β * ∑ s2, m.T s a s2 * (dot (m.phi s2) w + γ * acc.1.1 s2)))),
       max acc.2
         |fmax (fun a => ∑ s2, m.T s a s2 * (dot (m.phi s2) w + γ * acc.1.1 s2))
           - acc.1.1 s|)) ∧
    (value_iteration m e w threshold γ β fuel = some out ↔
      ∃ n, n ≤ fuel ∧ out = ((viSweeps m e w threshold γ β n).1, n) ∧
        (∀ k, k < n → threshold ≤ (viSweeps m e w threshold γ β k).2) ∧
        (viSweeps m e w threshold γ β n).2 < threshold) := by
  refine ⟨rfl, fun acc s => rfl, ?_⟩
  rw [value_iteration, value_iterationOrder,
    loopUntil_eq_some_iff (viSweepOrder m e w γ β (List.finRange NS)) threshold]
  constructor
  · rintro ⟨j, hj, hout, hlt, hend⟩
    exact ⟨j, hj, by simpa [viSweeps] using hout, fun k hk => hlt k hk, hend⟩
  · rintro ⟨n, hn, hout, hlt, hend⟩
    exact ⟨n, hn, by simpa [viSweeps] using hout, fun k hk => hlt k hk, hend⟩

/-!  ### The 2-state, 1-action chain MDP of claim C2

A single non-terminal initial state `0` moves with probability 1 to the
terminal state `1`, whose feature reward is `phi(1)·w = r` (features
`phi 1 = r`, task `w = 1`).  As required of a handcrafted chain MDP, the
terminal state's transition row is all-zero. -/

def chainModel (r : ℚ) : Model 2 1 1 0 where
  T := fun s _ s2 => if s = 0 ∧ s2 = 1 then 1 else 0
  phi := fun s _ => if s = 1 then r else 0
  is_terminal := fun s => decide (s = 1)
  Wtrain := Fin.elim0
  Wtest := []

theorem chainModel_sweep (r γ β : ℚ) (e : ℚ → ℚ)
    (vp : (Fin 2 → ℚ) × (Fin 2 → Fin 1 → ℚ)) :
    (viSweepOrder (chainModel r) e (fun _ => 1) γ β (List.finRange 2) vp).1.1 0
        = r + γ * vp.1 1 ∧
    (viSweepOrder (chainModel r) e (fun _ => 1) γ β (List.finRange 2) vp).1.1 1
        = 0 ∧
    (viSweepOrder (chainModel r) e (fun _ => 1) γ β (List.finRange 2) vp).2
        = max |r + γ * vp.1 1 - vp.1 0| |vp.1 1| := by
  have hfr : List.finRange 2 = [0, 1] := rfl
  refine ⟨?_, ?_, ?_⟩ <;>
  · simp [viSweepOrder, hfr, viUpdate, dot, chainModel, Fin.sum_univ_two,
      Fin.sum_univ_one, fmax_fin_one, Function.update_apply,
      abs_nonneg, max_eq_right, zero_sub, abs_neg]
    try ring_nf

theorem viInit_chainModel (r : ℚ) :
    viInit (chainModel r) (fun _ => 1) 0 = 0 ∧
    viInit (chainModel r) (fun _ => 1) 1 = r := by
  constructor <;> simp [viInit, chainModel, dot, Fin.sum_univ_one]

theorem chainModel_three_sweep_run (r γ t β : ℚ) (e : ℚ → ℚ) (n : ℕ)
    (hr : 0 < r) (hγ : 0 < γ) (ht : 0 < t) (htr : t ≤ γ * r) :
    (value_iteration (chainModel r) e (fun _ => 1) t γ β (n + 3)).map
        (fun p => (p.1.1 0, p.1.1 1, p.2)) = some (r, 0, 3) := by
  obtain ⟨hi0, hi1⟩ := viInit_chainModel r
  obtain ⟨hA0, hA1, hA2⟩ := chainModel_sweep r γ β e
    (viInit (chainModel r) (fun _ => 1), fun _ _ => 0)
  dsimp only at hA0 hA1 hA2
  rw [hi1] at hA0 hA2
  rw [hi0] at hA2
  obtain ⟨hB0, hB1, hB2⟩ := chainModel_sweep r γ β e
    (viSweepOrder (chainModel r) e (fun _ => 1) γ β (List.finRange 2)
      (viInit (chainModel r) (fun _ => 1), fun _ _ => 0)).1
  rw [hA1] at hB0 hB2
  rw [hA0] at hB2
  obtain ⟨hC0, hC1, hC2⟩ := chainModel_sweep r γ β e
    (viSweepOrder (chainModel r) e (fun _ => 1) γ β (List.finRange 2)
      (viSweepOrder (chainModel r) e (fun _ => 1) γ β (List.finRange 2)
        (viInit (chainModel r) (fun _ => 1), fun _ _ => 0)).1).1
  rw [hB1] at hC0 hC2
  rw [hB0] at hC2
  have hd1 : ¬ ((viSweepOrder (chainModel r) e (fun _ => 1) γ β
      (List.finRange 2)
      (viInit (chainModel r) (fun _ => 1), fun _ _ => 0)).2 < t) := by
    rw [hA2]
    refine not_lt.mpr (le_trans ?_ (le_max_left _ _))
    have h1 : t ≤ r + γ * r := le_trans htr (by nlinarith)
    calc t ≤ r + γ * r := h1
    _ = |r + γ * r - 0| := by rw [sub_zero, abs_of_pos (by positivity)]
  have hd2 : ¬ ((viSweepOrder (chainModel r) e (fun _ => 1) γ β
      (List.finRange 2)
      (viSweepOrder (chainModel r) e (fun _ => 1) γ β (List.finRange 2)
        (viInit (chainModel r) (fun _ => 1), fun _ _ => 0)).1).2 < t) := by
    rw [hB2]
    refine not_lt.mpr (le_trans ?_ (le_max_left _ _))
    have h1 : r + γ * 0 - (r + γ * r) = -(γ * r) := by ring
    rw [h1, abs_neg, abs_of_pos (by positivity)]
    exact htr
  have hd3 : (viSweepOrder (chainModel r) e (fun _ => 1) γ β (List.finRange 2)
      (viSweepOrder (chainModel r) e (fun _ => 1) γ β (List.finRange 2)
        (viSweepOrder (chainModel r) e (fun _ => 1) γ β (List.finRange 2)
          (viInit (chainModel r) (fun _ => 1), fun _ _ => 0)).1).1).2 < t := by
    rw [hC2]
    simpa using ht
  have hrun : value_iteration (chainModel r) e (fun _ => 1) t γ β (n + 3) =
      some ((viSweepOrder (chainModel r) e (fun _ => 1) γ β (List.finRange 2)
        (viSweepOrder (chainModel r) e (fun _ => 1) γ β (List.finRange 2)
          (viSweepOrder (chainModel r) e (fun _ => 1) γ β (List.finRange 2)
            (viInit (chainModel r) (fun _ => 1), fun _ _ => 0)).1).1).1,
        0 + 1 + 1 + 1) := by
    rw [value_iteration, value_iterationOrder]
    rw [show n + 3 = (n + 2) + 1 from rfl, loopUntil, if_neg (lt_irrefl t)]
    rw [show n + 2 = (n + 1) + 1 from rfl, loopUntil, if_neg hd1]
    rw [loopUntil, if_neg hd2]
    exact loopUntil_of_lt _ _ _ _ _ _ hd3
  rw [hrun, Option.map_some']
  rw [hC0, hC1]
  norm_num

/-- Claim C2 (amended): on the 2-state, 1-action chain with terminal
reward `r`, for any `0 < threshold ≤ γ·r` and `0 < r`, `0 < γ`,
`value_iteration` converges with `V(initial state) = r` — but the while
loop exits only after three sweeps, not one, and the terminal state's
value is reset to `0` (its all-zero transition row makes `Q = 0` there):
the first sweep sets `V(0) = r(1+γ)` and `V(1) = 0`, the second sets
`V(0) = r`, the third registers no change and exits with `count = 3`. -/
theorem chain_value_iteration_three_sweeps (r γ t β : ℚ) (e : ℚ → ℚ) (n : ℕ)
    (hr : 0 < r) (hγ : 0 < γ) (ht : 0 < t) (htr : t ≤ γ * r) :
    (value_iteration (chainModel r) e (fun _ => 1) t γ β (n + 3)).map
        (fun p => (p.1.1 0, p.1.1 1, p.2)) = some (r, 0, 3) :=
  chainModel_three_sweep_run r γ t β e n hr hγ ht htr

/-- Witness for `chain_value_iteration_three_sweeps` at `r = 2`,
`γ = 1/2`, `threshold = 1/10`. -/
theorem chain_value_iteration_three_sweeps_witness :
    (0 < (2 : ℚ) ∧ 0 < (1/2 : ℚ) ∧ 0 < (1/10 : ℚ) ∧ (1/10 : ℚ) ≤ 1/2 * 2) ∧
    (value_iteration (chainModel 2) (fun q => q) (fun _ => 1) (1/10) (1/2) 5
        (1 + 3)).map (fun p => (p.1.1 0, p.1.1 1, p.2)) = some (2, 0, 3) :=
  ⟨⟨by norm_num, by norm_num, by norm_num, by norm_num⟩,
   chain_value_iteration_three_sweeps 2 (1/2) (1/10) 5 (fun q => q) 1
     (by norm_num) (by norm_num) (by norm_num) (by norm_num)⟩

/-- Counterexample to claim C2 as stated: on the chain with `r = 1`,
`γ = 9/10`, `threshold = 1/100`, the while loop of `value_iteration` exits
after three sweeps, not one (and the returned `V` is `(1, 0)`, carrying
`r` at the initial state but `0` at the terminal one). -/
theorem chain_value_iteration_counterexample :
    (value_iteration (chainModel 1) (fun _ => 1) (fun _ => 1) (1/100) (9/10)
        10 3).map (fun p => (p.1.1 0, p.1.1 1, p.2)) = some (1, 0, 3) ∧
    (3 : ℕ) ≠ 1 := by
  have h := chainModel_three_sweep_run 1 (9/10) (1/100) 10 (fun _ => 1) 0
    (by norm_num) (by norm_num) (by norm_num) (by norm_num)
  exact ⟨h, by norm_num⟩

/-!  ### Scalar characterization of runs on 2-state models

For a 2-state model whose sweep acts on the value components through
scalar maps `f0, f1` with sweep-delta `d`, a `loopUntil` run is determined
by the scalar sequence `u` of the two values after each sweep. -/

theorem two_state_sweepSeq_proj {P : Type}
    (step : ((Fin 2 → ℚ) × P) → ((Fin 2 → ℚ) × P) × ℚ) (f0 f1 d : ℚ → ℚ → ℚ)
    (hstep : ∀ vp, (step vp).1.1 0 = f0 (vp.1 0) (vp.1 1) ∧
      (step vp).1.1 1 = f1 (vp.1 0) (vp.1 1) ∧
      (step vp).2 = d (vp.1 0) (vp.1 1))
    (t : ℚ) (init : (Fin 2 → ℚ) × P) (u : ℕ → ℚ × ℚ) (n : ℕ)
    (hu0 : u 0 = (init.1 0, init.1 1))
    (hu : ∀ k, k < n → u (k + 1) = (f0 (u k).1 (u k).2, f1 (u k).1 (u k).2)) :
    ∀ k, k ≤ n →
      ((sweepSeq step init t k).1.1 0 = (u k).1 ∧
       (sweepSeq step init t k).1.1 1 = (u k).2) ∧
      (∀ j, k = j + 1 → (sweepSeq step init t k).2 = d (u j).1 (u j).2) := by
  intro k
  induction k with
  | zero =>
    intro _
    refine ⟨⟨?_, ?_⟩, ?_⟩
    · simp [sweepSeq, hu0]
    · simp [sweepSeq, hu0]
    · intro j hj
      omega
  | succ k ih =>
    intro hk
    obtain ⟨⟨ihv0, ihv1⟩, _⟩ := ih (by omega)
    obtain ⟨hs0, hs1, hs2⟩ := hstep (sweepSeq step init t k).1
    have hu' := hu k (by omega)
    refine ⟨⟨?_, ?_⟩, ?_⟩
    · show (step (sweepSeq step init t k).1).1.1 0 = _
      rw [hs0, ihv0, ihv1, hu']
    · show (step (sweepSeq step init t k).1).1.1 1 = _
      rw [hs1, ihv0, ihv1, hu']
    · intro j hj
      have hjk : j = k := by omega
      subst hjk
      show (step (sweepSeq step init t j).1).2 = _
      rw [hs2, ihv0, ihv1]

theorem two_state_loop {P : Type}
    (step : ((Fin 2 → ℚ) × P) → ((Fin 2 → ℚ) × P) × ℚ) (f0 f1 d : ℚ → ℚ → ℚ)
    (hstep : ∀ vp, (step vp).1.1 0 = f0 (vp.1 0) (vp.1 1) ∧
      (step vp).1.1 1 = f1 (vp.1 0) (vp.1 1) ∧
      (step vp).2 = d (vp.1 0) (vp.1 1))
    (t : ℚ) (init : (Fin 2 → ℚ) × P) (u : ℕ → ℚ × ℚ) (m fuel : ℕ)
    (hfuel : m + 1 ≤ fuel)
    (hu0 : u 0 = (init.1 0, init.1 1))
    (hu : ∀ k, k < m + 1 → u (k + 1) = (f0 (u k).1 (u k).2, f1 (u k).1 (u k).2))
    (hbig : ∀ j, j < m → t ≤ d (u j).1 (u j).2)
    (hend : d (u m).1 (u m).2 < t) :
    (loopUntil step t fuel t init 0).map (fun p => (p.1.1 0, p.1.1 1, p.2))
      = some ((u (m + 1)).1, (u (m + 1)).2, m + 1) := by
  have proj := two_state_sweepSeq_proj step f0 f1 d hstep t init u (m + 1) hu0 hu
  have hrun : loopUntil step t fuel t init 0
      = some ((sweepSeq step init t (m + 1)).1, 0 + (m + 1)) := by
    rw [loopUntil_eq_some_iff]
    refine ⟨m + 1, hfuel, rfl, ?_, ?_⟩
    · intro k hk
      cases k with
      | zero => simp [sweepSeq]
      | succ j =>
        rw [(proj (j + 1) (by omega)).2 j rfl]
        exact hbig j (by omega)
    · rw [(proj (m + 1) (le_refl _)).2 m rfl]
      exact hend
  rw [hrun, Option.map_some']
  obtain ⟨⟨hv0, hv1⟩, _⟩ := proj (m + 1) (le_refl _)
  rw [hv0, hv1]
  norm_num

/-!  ### A 2-state model on which sweep order matters

States `0` and `1` feed each other (`0 -> 1`, `1 -> 0`, one action, no
terminal state), features `phi 1 = 1`, `phi 0 = 0`.  Because the source's
sweep updates `V` in place, reordering the per-sweep state updates changes
the returned `V`. -/

def loopModel : Model 2 1 1 0 where
  T := fun s _ s2 =>
    if s = 0 ∧ s2 = 1 then 1 else if s = 1 ∧ s2 = 0 then 1 else 0
  phi := fun s _ => if s = 1 then 1 else 0
  is_terminal := fun _ => false
  Wtrain := Fin.elim0
  Wtest := []

theorem loopModel_sweep_nat (γ β : ℚ) (e : ℚ → ℚ)
    (vp : (Fin 2 → ℚ) × (Fin 2 → Fin 1 → ℚ)) :
    (viSweepOrder loopModel e (fun _ => 1) γ β (List.finRange 2) vp).1.1 0
        = 1 + γ * vp.1 1 ∧
    (viSweepOrder loopModel e (fun _ => 1) γ β (List.finRange 2) vp).1.1 1
        = γ * (1 + γ * vp.1 1) ∧
    (viSweepOrder loopModel e (fun _ => 1) γ β (List.finRange 2) vp).2
        = max |1 + γ * vp.1 1 - vp.1 0| |γ * (1 + γ * vp.1 1) - vp.1 1| := by
  have hfr : List.finRange 2 = [0, 1] := rfl
  refine ⟨?_, ?_, ?_⟩ <;>
  · simp [viSweepOrder, hfr, viUpdate, dot, loopModel, Fin.sum_univ_two,
      Fin.sum_univ_one, fmax_fin_one, Function.update_apply,
      abs_nonneg, max_eq_right, zero_sub, abs_neg]
    try ring_nf

theorem loopModel_sweep_rev (γ β : ℚ) (e : ℚ → ℚ)
    (vp : (Fin 2 → ℚ) × (Fin 2 → Fin 1 → ℚ)) :
    (viSweepOrder loopModel e (fun _ => 1) γ β [1, 0] vp).1.1 0
        = 1 + γ * (γ * vp.1 0) ∧
    (viSweepOrder loopModel e (fun _ => 1) γ β [1, 0] vp).1.1 1
        = γ * vp.1 0 ∧
    (viSweepOrder loopModel e (fun _ => 1) γ β [1, 0] vp).2
        = max |γ * vp.1 0 - vp.1 1| |1 + γ * (γ * vp.1 0) - vp.1 0| := by
  refine ⟨?_, ?_, ?_⟩ <;>
  · simp [viSweepOrder, viUpdate, dot, loopModel, Fin.sum_univ_two,
      Fin.sum_univ_one, fmax_fin_one, Function.update_apply,
      abs_nonneg, max_eq_right, zero_sub, abs_neg]
    try ring_nf

/-- The two-value trace of the in-order run on `loopModel` with
`γ = 1/2`. -/
def loopModelSeqNat : ℕ → ℚ × ℚ := fun k =>
  ([((0:ℚ), (0:ℚ)), (1, 1/2), (5/4, 5/8), (21/16, 21/32), (85/64, 85/128),
    (341/256, 341/512)] : List (ℚ × ℚ)).getD k (0, 0)

/-- The two-value trace of the reversed-order run on `loopModel` with
`γ = 1/2`. -/
def loopModelSeqRev : ℕ → ℚ × ℚ := fun k =>
  ([((0:ℚ), (0:ℚ)), (1, 0), (5/4, 1/2), (21/16, 5/8), (85/64, 21/32),
    (341/256, 85/128)] : List (ℚ × ℚ)).getD k (0, 0)

/-- Counterexample to claim C1 as stated: the per-sweep state updates of
`value_iteration` do not read only the previous sweep's snapshot of `V` —
on `loopModel` (`γ = 1/2`, threshold `1/100`) processing each sweep's
states in the order `[1, 0]` instead of the source's `[0, 1]` changes the
returned `V` (both runs converge after 5 sweeps, but `V 1` is `341/512`
for the in-order run and `85/128` for the reordered one). -/
theorem value_iteration_order_counterexample :
    (([1, 0] : List (Fin 2)).Perm (List.finRange 2)) ∧
    (value_iterationOrder loopModel (fun _ => 1) (fun _ => 1) (1/100) (1/2) 1
        [1, 0] 9).map (fun p => (p.1.1 0, p.1.1 1, p.2))
      ≠ (value_iteration loopModel (fun _ => 1) (fun _ => 1) (1/100) (1/2) 1
        9).map (fun p => (p.1.1 0, p.1.1 1, p.2)) := by
  constructor
  · decide
  · have hnat := two_state_loop
      (viSweepOrder loopModel (fun _ => 1) (fun _ => 1) (1/2) 1
        (List.finRange 2))
      (fun v0 v1 => 1 + 1/2 * v1) (fun v0 v1 => 1/2 * (1 + 1/2 * v1))
      (fun v0 v1 => max |1 + 1/2 * v1 - v0| |1/2 * (1 + 1/2 * v1) - v1|)
      (loopModel_sweep_nat (1/2) 1 (fun _ => 1)) (1/100)
      (viInit loopModel (fun _ => 1), fun _ _ => 0) loopModelSeqNat 4 9
      (by omega)
      (by simp [loopModelSeqNat, viInit, loopModel])
      (by intro k hk; interval_cases k <;> norm_num [loopModelSeqNat])
      (by
        intro j hj
        interval_cases j <;>
        · refine le_trans ?_ (le_max_left _ _)
          refine le_abs.mpr (Or.inl ?_)
          norm_num [loopModelSeqNat])
      (by
        refine max_lt ?_ ?_ <;>
        · rw [abs_lt]
          constructor <;> norm_num [loopModelSeqNat])
    have hrev := two_state_loop
      (viSweepOrder loopModel (fun _ => 1) (fun _ => 1) (1/2) 1 [1, 0])
      (fun v0 v1 => 1 + 1/2 * (1/2 * v0)) (fun v0 v1 => 1/2 * v0)
      (fun v0 v1 => max |1/2 * v0 - v1| |1 + 1/2 * (1/2 * v0) - v0|)
      (loopModel_sweep_rev (1/2) 1 (fun _ => 1)) (1/100)
      (viInit loopModel (fun _ => 1), fun _ _ => 0) loopModelSeqRev 4 9
      (by omega)
      (by simp [loopModelSeqRev, viInit, loopModel])
      (by intro k hk; interval_cases k <;> norm_num [loopModelSeqRev])
      (by
        intro j hj
        interval_cases j
        · refine le_trans ?_ (le_max_right _ _)
          refine le_abs.mpr (Or.inl ?_)
          norm_num [loopModelSeqRev]
        · refine le_trans ?_ (le_max_left _ _)
          refine le_abs.mpr (Or.inl ?_)
          norm_num [loopModelSeqRev]
        · refine le_trans ?_ (le_max_left _ _)
          refine le_abs.mpr (Or.inl ?_)
          norm_num [loopModelSeqRev]
        · refine le_trans ?_ (le_max_left _ _)
          refine le_abs.mpr (Or.inl ?_)
          norm_num [loopModelSeqRev])
      (by
        refine max_lt ?_ ?_ <;>
        · rw [abs_lt]
          constructor <;> norm_num [loopModelSeqRev])
    rw [value_iteration, value_iterationOrder, value_iterationOrder]
    rw [hnat, hrev]
    simp only [Ne, Option.some_inj, Prod.mk.injEq]
    intro h
    have h2 := h.2.1
    norm_num [loopModelSeqNat, loopModelSeqRev] at h2

/-- Modelled from the spec's wording for claim C1 ("updates read only the
previous sweep's snapshot"): a sweep whose per-state updates all read the
sweep's initial snapshot `vp.1` of `V`, rather than the in-place `V` the
source's sweep uses. -/
def viSweepSnapshotOrder {NS na NP Ntrain : ℕ} (m : Model NS (na + 1) NP Ntrain)
    (e : ℚ → ℚ) (w : Fin NP → ℚ) (γ β : ℚ) (order : List (Fin NS))
    (vp : (Fin NS → ℚ) × (Fin NS → Fin (na + 1) → ℚ)) :
    ((Fin NS → ℚ) × (Fin NS → Fin (na + 1) → ℚ)) × ℚ :=
  order.foldl (fun acc s =>
    let vals : Fin NS → ℚ := fun s2 => dot (m.phi s2) w + γ * vp.1 s2
    let Q : Fin (na + 1) → ℚ := fun a => ∑ s2, m.T s a s2 * vals s2
    ((Function.update acc.1.1 s (fmax Q),
      Function.update acc.1.2 s (softmaxWith e (fun a => β * Q a))),
     max acc.2 |fmax Q - vp.1 s|)) (vp, 0)

/-- The full value-iteration loop built from snapshot sweeps in the given
state order. -/
def value_iterationSnapshotOrder {NS na NP Ntrain : ℕ}
    (m : Model NS (na + 1) NP Ntrain) (e : ℚ → ℚ) (w : Fin NP → ℚ)
    (threshold γ β : ℚ) (order : List (Fin NS)) (fuel : ℕ) :
    Option ((((Fin NS → ℚ) × (Fin NS → Fin (na + 1) → ℚ))) × ℕ) :=
  loopUntil (viSweepSnapshotOrder m e w γ β order) threshold fuel threshold
    (viInit m w, fun _ _ => 0) 0

/-- Claim C1 (amended): the source's sweeps update `V` in place, so the
per-state updates of a sweep are order-dependent (see the counterexample);
a sweep that reads only the sweep's initial snapshot of `V` is
order-independent: processing the states in any order that is a
permutation of `0, ..., NS-1` produces the same `(V, pi)` and the same
sweep `delta`, and hence the same returned `V` and `pi` for the whole
iteration. -/
theorem snapshot_sweep_order_invariant {NS na NP Ntrain : ℕ}
    (m : Model NS (na + 1) NP Ntrain) (e : ℚ → ℚ) (w : Fin NP → ℚ)
    (threshold γ β : ℚ) (order : List (Fin NS))
    (hperm : order.Perm (List.finRange NS)) :
    (∀ vp, viSweepSnapshotOrder m e w γ β order vp
      = viSweepSnapshotOrder m e w γ β (List.finRange NS) vp) ∧
    (∀ fuel, value_iterationSnapshotOrder m e w threshold γ β order fuel
      = value_iterationSnapshotOrder m e w threshold γ β (List.finRange NS)
          fuel) := by
  have h : ∀ vp, viSweepSnapshotOrder m e w γ β order vp
      = viSweepSnapshotOrder m e w γ β (List.finRange NS) vp := by
    intro vp
    refine List.Perm.foldl_eq' hperm ?_ _
    intro x hx y hy z
    by_cases hxy : x = y
    · subst hxy; rfl
    · dsimp only
      congr 1
      · congr 1
        · exact Function.update_comm hxy _ _ _
        · exact Function.update_comm hxy _ _ _
      · exact sup_right_comm _ _ _
  refine ⟨h, fun fuel => ?_⟩
  rw [value_iterationSnapshotOrder, value_iterationSnapshotOrder, funext h]

/-- Witness for `snapshot_sweep_order_invariant`: the order `[1, 0]` on the
2-state `loopModel`. -/
theorem snapshot_sweep_order_invariant_witness :
    (([1, 0] : List (Fin 2)).Perm (List.finRange 2)) ∧
    ((∀ vp, viSweepSnapshotOrder loopModel (fun _ => 1) (fun _ => 1) (1/2) 1
        [1, 0] vp
      = viSweepSnapshotOrder loopModel (fun _ => 1) (fun _ => 1) (1/2) 1
          (List.finRange 2) vp) ∧
     (∀ fuel, value_iterationSnapshotOrder loopModel (fun _ => 1)
        (fun _ => 1) (1/100) (1/2) 1 [1, 0] fuel
      = value_iterationSnapshotOrder loopModel (fun _ => 1) (fun _ => 1)
          (1/100) (1/2) 1 (List.finRange 2) fuel)) :=
  ⟨by decide,
   snapshot_sweep_order_invariant loopModel (fun _ => 1) (fun _ => 1) (1/100)
     (1/2) 1 [1, 0] (by decide)⟩

/-!  ### Successor features (`sfgpi_train`, main.py lines 453-472)

For each training task the policy comes from `value_iteration`; then
`psi[s] = phi[s] + gamma * (pi[s] @ T[s] @ psi)` is iterated in place over
all states until the maximal per-state change, measured by `torch.dist`
(the Euclidean norm of the difference), drops below the threshold.  The
embedding carries the squared distances and compares against
`threshold^2`, which agrees with the source's comparisons whenever the
threshold is nonnegative; the claim theorem below states the stopping rule
through `Real.sqrt`, i.e. through the actual vector norm. -/

/-- Squared Euclidean distance, `torch.dist(x, y)^2`. -/
def sqDist {n : ℕ} (x y : Fin n → ℚ) : ℚ := ∑ p, (x p - y p) ^ 2

/-- Body of the successor-feature sweep (lines 467-470): in-place update of
`psi[s]` and of the running maximal (squared) change. -/
def sfUpdate {NS NA NP Ntrain : ℕ} (m : Model NS NA NP Ntrain) (γ : ℚ)
    (pi : Fin NS → Fin NA → ℚ) (acc : (Fin NS → Fin NP → ℚ) × ℚ)
    (s : Fin NS) : (Fin NS → Fin NP → ℚ) × ℚ :=
  let newrow : Fin NP → ℚ := fun p =>
    m.phi s p + γ * ∑ a, pi s a * ∑ s2, m.T s a s2 * acc.1 s2 p
  (Function.update acc.1 s newrow, max acc.2 (sqDist newrow (acc.1 s)))

/-- One full sweep of the successor-feature iteration over all states. -/
def sfSweep {NS NA NP Ntrain : ℕ} (m : Model NS NA NP Ntrain) (γ : ℚ)
    (pi : Fin NS → Fin NA → ℚ) (psi : Fin NS → Fin NP → ℚ) :
    (Fin NS → Fin NP → ℚ) × ℚ :=
  (List.finRange NS).foldl (sfUpdate m γ pi) (psi, 0)

/-- The per-task `while delta >= threshold` loop of `sfgpi_train`, starting
from `psi = phi` and returning the converged `psi` with the sweep count. -/
def sfLoop {NS NA NP Ntrain : ℕ} (m : Model NS NA NP Ntrain) (γ : ℚ)
    (pi : Fin NS → Fin NA → ℚ) (threshold : ℚ) (fuel : ℕ) :
    Option ((Fin NS → Fin NP → ℚ) × ℕ) :=
  loopUntil (sfSweep m γ pi) (threshold ^ 2) fuel (threshold ^ 2) m.phi 0

/-- `psi` and the sweep's (squared) `delta` after `n` successor-feature
sweeps. -/
def sfSweeps {NS NA NP Ntrain : ℕ} (m : Model NS NA NP Ntrain) (γ : ℚ)
    (pi : Fin NS → Fin NA → ℚ) (threshold : ℚ) (n : ℕ) :
    (Fin NS → Fin NP → ℚ) × ℚ :=
  sweepSeq (sfSweep m γ pi) m.phi (threshold ^ 2) n

/-- `MTRL.sfgpi_train` (lines 453-472), per training task: get the task's
`(V, pi)` from `value_iteration`, then run the successor-feature loop on
that `pi`. -/
def sfgpi_train {NS na NP Ntrain : ℕ} (m : Model NS (na + 1) NP Ntrain)
    (e : ℚ → ℚ) (threshold γ β : ℚ) (fuelVI fuelSF : ℕ) :
    Fin Ntrain → Option ((Fin NS → Fin NP → ℚ) × ℕ) :=
  fun widx =>
    (value_iteration m e (m.Wtrain widx) threshold γ β fuelVI).bind
      (fun vp => sfLoop m γ vp.1.2 threshold fuelSF)

/-- Claim C6: for each training task, the successor-feature iteration of
`sfgpi_train`, given that task's value-iteration policy `pi`, repeatedly
applies `psi(s) <- phi(s) + gamma * (pi(s) @ T[s] @ psi)` over every state
`s`, and stops exactly when the maximum over states of the vector norm of
`psi(s)`'s change within a sweep falls below the threshold.  (Since
`Real.sqrt` is monotone, the square root of the running maximum of squared
distances is the maximal Euclidean-norm change of the sweep.) -/
theorem sf_iteration_loop_spec {NS na NP Ntrain : ℕ}
    (m : Model NS (na + 1) NP Ntrain) (e : ℚ → ℚ) (threshold γ β : ℚ)
    (fuelVI fuelSF : ℕ) (ht : 0 < threshold) :
    (∀ widx, sfgpi_train m e threshold γ β fuelVI fuelSF widx
      = (value_iteration m e (m.Wtrain widx) threshold γ β fuelVI).bind
          (fun vp => sfLoop m γ vp.1.2 threshold fuelSF)) ∧
    (∀ (pi : Fin NS → Fin (na + 1) → ℚ) acc s, sfUpdate m γ pi acc s
      = (Function.update acc.1 s
          (fun p => m.phi s p + γ * ∑ a, pi s a * ∑ s2, m.T s a s2 * acc.1 s2 p),
         max acc.2 (sqDist
          (fun p => m.phi s p + γ * ∑ a, pi s a * ∑ s2, m.T s a s2 * acc.1 s2 p)
          (acc.1 s)))) ∧
    (∀ (pi : Fin NS → Fin (na + 1) → ℚ) (fuel : ℕ)
        (out : (Fin NS → Fin NP → ℚ) × ℕ),
      sfLoop m γ pi threshold fuel = some out ↔
        ∃ n, n ≤ fuel ∧ out = ((sfSweeps m γ pi threshold n).1, n) ∧
          (∀ k, k < n → (threshold : ℝ)
            ≤ Real.sqrt ((sfSweeps m γ pi threshold k).2 : ℝ)) ∧
          Real.sqrt ((sfSweeps m γ pi threshold n).2 : ℝ) < threshold) := by
  have ht' : 0 < (threshold : ℝ) := by exact_mod_cast ht
  have hle : ∀ d : ℚ, (threshold : ℝ) ≤ Real.sqrt (d : ℝ) ↔ threshold ^ 2 ≤ d := by
    intro d
    rw [Real.le_sqrt' ht']
    constructor
    · intro h; exact_mod_cast h
    · intro h; exact_mod_cast h
  have hlt : ∀ d : ℚ, Real.sqrt (d : ℝ) < threshold ↔ d < threshold ^ 2 := by
    intro d
    rw [Real.sqrt_lt' ht']
    constructor
    · intro h; exact_mod_cast h
    · intro h; exact_mod_cast h
  refine ⟨fun widx => rfl, fun pi acc s => rfl, fun pi fuel out => ?_⟩
  rw [sfLoop, loopUntil_eq_some_iff]
  constructor
  · rintro ⟨n, hn, hout, hbig, hend⟩
    refine ⟨n, hn, by simpa [sfSweeps] using hout,
      fun k hk => (hle _).mpr (hbig k hk), (hlt _).mpr hend⟩
  · rintro ⟨n, hn, hout, hbig, hend⟩
    refine ⟨n, hn, by simpa [sfSweeps] using hout,
      fun k hk => (hle _).mp (hbig k hk), (hlt _).mp hend⟩

/-- A 2-state chain model with one training task, for witnesses. -/
def trainChainModel : Model 2 1 1 1 where
  T := fun s _ s2 => if s = 0 ∧ s2 = 1 then 1 else 0
  phi := fun s _ => if s = 1 then 1 else 0
  is_terminal := fun s => decide (s = 1)
  Wtrain := fun _ _ => 1
  Wtest := []

/-- Witness for `sf_iteration_loop_spec` on `trainChainModel` with
threshold `1/100`. -/
theorem sf_iteration_loop_spec_witness :
    (0 < (1/100 : ℚ)) ∧
    (∀ widx, sfgpi_train trainChainModel (fun _ => 1) (1/100) (1/2) 1 5 5 widx
      = (value_iteration trainChainModel (fun _ => 1)
          (trainChainModel.Wtrain widx) (1/100) (1/2) 1 5).bind
          (fun vp => sfLoop trainChainModel (1/2) vp.1.2 (1/100) 5)) :=
  ⟨by norm_num,
   (sf_iteration_loop_spec trainChainModel (fun _ => 1) (1/100) (1/2) 1 5 5
     (by norm_num)).1⟩

/-!  ### GPI prediction (`sfgpi_predict`, main.py lines 474-479) -/

/-- Per-state GPI value bound, `vmax = (psi @ w).max(dim=0)[0]` (line 476):
the maximum over candidates of `psi_c(s)·w`. -/
def sfgpiVmax {NS NP nc : ℕ} (psi : Fin (nc + 1) → Fin NS → Fin NP → ℚ)
    (w : Fin NP → ℚ) : Fin NS → ℚ :=
  fun s => fmax (fun c => dot (psi c s) w)

/-- `MTRL.sfgpi_predict(psi, w)` (lines 474-479):
`Q = T @ ((phi @ w) + gamma * vmax)`, `pi = softmax(beta * Q)` row-wise. -/
def sfgpi_predict {NS NA NP Ntrain nc : ℕ} (m : Model NS NA NP Ntrain)
    (e : ℚ → ℚ) (psi : Fin (nc + 1) → Fin NS → Fin NP → ℚ) (w : Fin NP → ℚ)
    (γ β : ℚ) : Fin NS → Fin NA → ℚ :=
  fun s => softmaxWith e (fun a =>
    β * ∑ s2, m.T s a s2 * (dot (m.phi s2) w + γ * sfgpiVmax psi w s2))

/-- Claim C7: for every stacked successor-feature tensor `psi` of shape
`(NC, NS, NP)` and every task vector `w`, `sfgpi_predict` returns
`pi = softmax(beta*Q)` row-wise with `Q(s,·) = T[s] @ (phi@w + gamma*vmax)`
where `vmax(s)` is exactly the maximum over candidates `c` of
`psi_c(s)·w`: it dominates every candidate's estimate and is attained by
one of them. -/
theorem sfgpi_predict_spec {NS NA NP Ntrain nc : ℕ} (m : Model NS NA NP Ntrain)
    (e : ℚ → ℚ) (psi : Fin (nc + 1) → Fin NS → Fin NP → ℚ) (w : Fin NP → ℚ)
    (γ β : ℚ) :
    (∀ s, sfgpi_predict m e psi w γ β s
      = softmaxWith e (fun a =>
          β * ∑ s2, m.T s a s2 * (dot (m.phi s2) w + γ * sfgpiVmax psi w s2))) ∧
    (∀ s c, dot (psi c s) w ≤ sfgpiVmax psi w s) ∧
    (∀ s, ∃ c, sfgpiVmax psi w s = dot (psi c s) w) :=
  ⟨fun _ => rfl, fun _ c => le_fmax _ c, fun _ => fmax_exists_eq _⟩

/-!  ### USFA prediction (`usfa_predict`, main.py lines 524-539)

The universal successor-feature approximator is external (a `DQN`); it is
embedded as an abstract map `usfn` taking the one-hot state encoding and
the candidate vector — the two halves the source concatenates into one
input row `onehot(s) ⊕ C[c]`. -/

/-- One-hot encoding of a state, a row of `torch.eye(NS)`. -/
def onehot {n : ℕ} (s : Fin n) : Fin n → ℚ := fun i => if i = s then 1 else 0

/-- Candidate-set resolution (lines 526-527): `C` defaults to the training
task set `Wtrain` when omitted. -/
def usfa_resolveC {NS NA NP nt : ℕ} (m : Model NS NA NP (nt + 1)) :
    Option ((nc : ℕ) × (Fin (nc + 1) → Fin NP → ℚ)) →
      (nc : ℕ) × (Fin (nc + 1) → Fin NP → ℚ)
  | none => ⟨nt, m.Wtrain⟩
  | some C => C

/-- Body of `usfa_predict` for an explicit candidate set `C` (lines
530-539): `vmax(s) = max_c usfn(onehot(s) ⊕ C[c])·w`,
`Q = T @ ((phi @ w) + gamma * vmax)`, `pi = softmax(beta * Q)`. -/
def usfa_predictC {NS NA NP Ntrain nc : ℕ} (m : Model NS NA NP Ntrain)
    (e : ℚ → ℚ) (usfn : (Fin NS → ℚ) → (Fin NP → ℚ) → Fin NP → ℚ)
    (w : Fin NP → ℚ) (C : Fin (nc + 1) → Fin NP → ℚ) (β γ : ℚ) :
    Fin NS → Fin NA → ℚ :=
  fun s => softmaxWith e (fun a =>
    β * ∑ s2, m.T s a s2 * (dot (m.phi s2) w
      + γ * fmax (fun c => dot (usfn (onehot s2) (C c)) w)))

/-- `MTRL.usfa_predict(usfn, w, C)` (lines 524-539), with the optional
candidate set. -/
def usfa_predict {NS NA NP nt : ℕ} (m : Model NS NA NP (nt + 1))
    (e : ℚ → ℚ) (usfn : (Fin NS → ℚ) → (Fin NP → ℚ) → Fin NP → ℚ)
    (w : Fin NP → ℚ)
    (copt : Option ((nc : ℕ) × (Fin (nc + 1) → Fin NP → ℚ))) (β γ : ℚ) :
    Fin NS → Fin NA → ℚ :=
  usfa_predictC m e usfn w (usfa_resolveC m copt).2 β γ

/-- The approximated successor-feature tensor
`psi_hat[c][s] = usfn(onehot(s) ⊕ C[c])`. -/
def usfaPsiHat {NS NP nc : ℕ}
    (usfn : (Fin NS → ℚ) → (Fin NP → ℚ) → Fin NP → ℚ)
    (C : Fin (nc + 1) → Fin NP → ℚ) : Fin (nc + 1) → Fin NS → Fin NP → ℚ :=
  fun c s => usfn (onehot s) (C c)

/-- Claim C8: `usfa_predict(usfn, w, C)` with `C` omitted uses `Wtrain` as
the candidate set, and for every candidate set it returns exactly the
policy `sfgpi_predict(psi_hat, w)` computes on the approximated
successor-feature tensor `psi_hat[c][s] = usfn(onehot(s) ⊕ C[c])`. -/
theorem usfa_predict_refines_sfgpi {NS NA NP nt : ℕ}
    (m : Model NS NA NP (nt + 1)) (e : ℚ → ℚ)
    (usfn : (Fin NS → ℚ) → (Fin NP → ℚ) → Fin NP → ℚ) (w : Fin NP → ℚ)
    (β γ : ℚ) :
    (usfa_predict m e usfn w none β γ
      = usfa_predict m e usfn w (some ⟨nt, m.Wtrain⟩) β γ) ∧
    (∀ copt, usfa_predict m e usfn w copt β γ
      = sfgpi_predict m e (usfaPsiHat usfn (usfa_resolveC m copt).2) w γ β) :=
  ⟨rfl, fun _ => rfl⟩

/-!  ### Determinism and purity of `value_iteration` (claim C9) -/

/-- State-threaded `value_iteration`: the source's method reads `self.NS`,
`self.is_terminal`, `self.phi` and `self.T` and assigns no attribute of
`self` (its writes go to the locals `V`, `pi`, `vals`, `Q`, `delta`,
`count`), so threading the object through the call returns it unchanged
alongside the usual result. -/
def value_iterationSt {NS na NP Ntrain : ℕ} (m : Model NS (na + 1) NP Ntrain)
    (e : ℚ → ℚ) (w : Fin NP → ℚ) (threshold γ β : ℚ) (fuel : ℕ) :
    Model NS (na + 1) NP Ntrain ×
      Option ((((Fin NS → ℚ) × (Fin NS → Fin (na + 1) → ℚ))) × ℕ) :=
  (m, value_iteration m e w threshold γ β fuel)

/-- Claim C9: `value_iteration` is deterministic and mutates no field of
the model: a first call leaves the model unchanged (every field included),
and a second call on the model returned by the first, with identical
arguments, returns the identical `V` and `pi` (and count). -/
theorem value_iteration_deterministic_pure {NS na NP Ntrain : ℕ}
    (m : Model NS (na + 1) NP Ntrain) (e : ℚ → ℚ) (w : Fin NP → ℚ)
    (threshold γ β : ℚ) (fuel : ℕ) :
    ((value_iterationSt m e w threshold γ β fuel).1 = m) ∧
    ((value_iterationSt (value_iterationSt m e w threshold γ β fuel).1
        e w threshold γ β fuel).1 = m) ∧
    ((value_iterationSt m e w threshold γ β fuel).2
      = (value_iterationSt (value_iterationSt m e w threshold γ β fuel).1
          e w threshold γ β fuel).2) ∧
    ((value_iterationSt m e w threshold γ β fuel).1.T = m.T) ∧
    ((value_iterationSt m e w threshold γ β fuel).1.phi = m.phi) ∧
    ((value_iterationSt m e w threshold γ β fuel).1.is_terminal
      = m.is_terminal) ∧
    ((value_iterationSt m e w threshold γ β fuel).1.Wtrain = m.Wtrain) ∧
    ((value_iterationSt m e w threshold γ β fuel).1.Wtest = m.Wtest) :=
  ⟨rfl, rfl, rfl, rfl, rfl, rfl, rfl, rfl⟩

/-!  ### The UVFA training epoch loop (claim C3, main.py lines 373-391)

`uvfa_train` builds `X` of `npertask * Ntrain * NS` rows (one-hot state ⊕
task vector), pairs it with the value targets, shuffles, and splits into
mini-batches of size `bsize` — `XY.split(bsize)` yields `ceil(N / bsize)`
batches.  Each epoch then runs `for i in range(bsize)`, i.e. it steps
through the first `bsize` batch indices only, not through every batch. -/

/-- Number of supervised examples built by `uvfa_train` (lines 373-377). -/
def uvfa_dataset_size (Ntrain npertask NS : ℕ) : ℕ := Ntrain * npertask * NS

/-- Number of mini-batches `XY.split(bsize)` yields: `ceil(N / bsize)`. -/
def uvfa_num_batches (N bsize : ℕ) : ℕ := (N + bsize - 1) / bsize

/-- The batch indices one training epoch touches (line 383): the loop is
`for i in range(bsize)`. -/
def uvfa_epoch_batch_indices (bsize : ℕ) : List ℕ := List.range bsize

/-- Claim C3 is violated by the code: with the default sizes of the source
(`Ntrain = 2` training tasks, `npertask = 200`, `NS = 13`, `bsize = 10`)
the dataset has 5200 examples in 520 mini-batches, but each epoch performs
gradient steps on the batch indices `range(bsize) = range(10)` only —
batch 10 (and everything after it) is never used, so an epoch does not use
every example once. -/
theorem uvfa_epoch_batch_coverage_bug :
    uvfa_dataset_size 2 200 13 = 5200 ∧
    uvfa_num_batches 5200 10 = 520 ∧
    uvfa_epoch_batch_indices 10 = List.range 10 ∧
    10 < uvfa_num_batches 5200 10 ∧
    10 ∉ uvfa_epoch_batch_indices 10 := by
  refine ⟨rfl, rfl, rfl, by norm_num [uvfa_num_batches], ?_⟩
  simp [uvfa_epoch_batch_indices, List.mem_range]

/-!  ### Tabular Q-learning (`q_learning`, main.py lines 239-262)

The three random draws of each episode step — `torch.randint(NA, (NS,))`,
`stats.uniform.rvs()` and `Categorical(T[state, action]).sample()` — are
supplied by an explicit stream of `QDraw`s; the sampler receives the
distribution row it would sample from.  The shuffled episode list
(`train_tasks[randperm]`) is the `tasks` parameter, a permutation of
`arange(Ntrain).repeat(npertask)`. -/

structure QDraw (NS NA : ℕ) where
  assign : Fin NS → Fin NA
  u : ℚ
  samp : (Fin NS → ℚ) → Fin NS

/-- Index of the first maximal entry of a row, torch's `argmax`. -/
def argmaxRow {n : ℕ} (q : Fin (n + 1) → ℚ) : Fin (n + 1) :=
  (List.finRange (n + 1)).foldl (fun best i => if q best < q i then i else best) 0

/-- Initialization of the Q table (lines 243-246): an arbitrary table `Q0`
(`torch.rand`), then `Q[i] *= 0` at every terminal state. -/
def qInit {NS NA NP Ntrain : ℕ} (m : Model NS NA NP Ntrain)
    (Q0 : Fin NS → Fin NA → ℚ) : Fin NS → Fin NA → ℚ :=
  fun s a => if m.is_terminal s then 0 else Q0 s a

/-- One step of the episode loop (lines 251-259): draw a full random
action assignment over all states, override it with the greedy per-state
argmax of the current `Q` when the uniform draw is below `1 - eps`, look
up the current state's action, sample the successor from `T[state,
action]`, apply `Q[s,a] += alpha * (phi[s2] @ w + gamma * Q[s2,a2] -
Q[s,a])` with `a2` the successor's action from the same assignment, and
advance to the successor. -/
def qStep {NS na NP Ntrain : ℕ} (m : Model NS (na + 1) NP Ntrain)
    (w : Fin NP → ℚ) (γ α eps : ℚ) (Q : Fin NS → Fin (na + 1) → ℚ)
    (s : Fin NS) (d : QDraw NS (na + 1)) :
    (Fin NS → Fin (na + 1) → ℚ) × Fin NS :=
  let actions : Fin NS → Fin (na + 1) :=
    if d.u < 1 - eps then (fun i => argmaxRow (Q i)) else d.assign
  let a := actions s
  let s2 := d.samp (m.T s a)
  let r := dot (m.phi s2) w
  let a2 := actions s2
  ((fun s3 a3 => if s3 = s ∧ a3 = a
      then Q s a + α * (r + γ * Q s2 a2 - Q s a) else Q s3 a3),
   s2)

/-- The episode loop `while not self.is_terminal[state]` (line 250), with
fuel; `t` indexes the draw stream and is returned so later episodes
continue the stream. -/
def qEpisode {NS na NP Ntrain : ℕ} (m : Model NS (na + 1) NP Ntrain)
    (w : Fin NP → ℚ) (γ α eps : ℚ) (draws : ℕ → QDraw NS (na + 1)) :
    ℕ → ℕ → (Fin NS → Fin (na + 1) → ℚ) → Fin NS →
      Option ((Fin NS → Fin (na + 1) → ℚ) × ℕ)
  | 0, t, Q, s => if m.is_terminal s then some (Q, t) else none
  | fuel + 1, t, Q, s =>
    if m.is_terminal s then some (Q, t)
    else
      qEpisode m w γ α eps draws fuel (t + 1)
        (qStep m w γ α eps Q s (draws t)).1
        (qStep m w γ α eps Q s (draws t)).2

/-- The outer loop `for k in train_tasks` (line 248); every episode starts
at state `0`. -/
def qEpisodes {ns na NP Ntrain : ℕ} (m : Model (ns + 1) (na + 1) NP Ntrain)
    (γ α eps : ℚ) (draws : ℕ → QDraw (ns + 1) (na + 1)) (fuel : ℕ) :
    List (Fin Ntrain) → ℕ → (Fin (ns + 1) → Fin (na + 1) → ℚ) →
      Option ((Fin (ns + 1) → Fin (na + 1) → ℚ) × ℕ)
  | [], t, Q => some (Q, t)
  | k :: ks, t, Q =>
    (qEpisode m (m.Wtrain k) γ α eps draws fuel t Q 0).bind
      (fun p => qEpisodes m γ α eps draws fuel ks p.2 p.1)

/-- `arange(Ntrain).repeat(npertask)` (line 241), before shuffling. -/
def trainTasksBase (Ntrain npertask : ℕ) : List (Fin Ntrain) :=
  (List.replicate npertask (List.finRange Ntrain)).flatten

/-- `MTRL.q_learning` (lines 239-262): initialize, run all episodes, and
return `Q` with `pi = softmax(beta * Q)` row-wise. -/
def q_learning {ns na NP Ntrain : ℕ} (m : Model (ns + 1) (na + 1) NP Ntrain)
    (e : ℚ → ℚ) (γ α eps β : ℚ) (Q0 : Fin (ns + 1) → Fin (na + 1) → ℚ)
    (tasks : List (Fin Ntrain)) (draws : ℕ → QDraw (ns + 1) (na + 1))
    (fuel : ℕ) :
    Option ((Fin (ns + 1) → Fin (na + 1) → ℚ) ×
      (Fin (ns + 1) → Fin (na + 1) → ℚ)) :=
  (qEpisodes m γ α eps draws fuel tasks 0 (qInit m Q0)).map
    (fun p => (p.1, fun s => softmaxWith e (fun a => β * p.1 s a)))

/-- Claim C5: in each step of `q_learning`'s episode loop (taken while the
current state is non-terminal), a uniformly-random action assignment over
all states is drawn and replaced, when the uniform draw falls below
`1 - eps`, by the greedy per-state argmax of the current `Q`; the current
state's action is looked up from the assignment, the successor is sampled
from `T[state, action]`, the update `Q(s,a) += alpha * (r + gamma *
Q(s',a') - Q(s,a))` is applied with `r = phi(s')·w` and `a'` the
successor's action from the same assignment, and the episode advances to
`s'`.  After the `npertask * Ntrain` shuffled episodes it returns `Q` and
`pi = softmax(beta * Q)` row-wise. -/
theorem q_learning_step_spec {ns na NP Ntrain : ℕ}
    (m : Model (ns + 1) (na + 1) NP Ntrain) (e : ℚ → ℚ) (γ α eps β : ℚ)
    (Q0 : Fin (ns + 1) → Fin (na + 1) → ℚ) (tasks : List (Fin Ntrain))
    (draws : ℕ → QDraw (ns + 1) (na + 1)) (fuel npertask : ℕ)
    (hperm : tasks.Perm (trainTasksBase Ntrain npertask)) :
    (∀ (w : Fin NP → ℚ) (Q : Fin (ns + 1) → Fin (na + 1) → ℚ) s d,
      qStep m w γ α eps Q s d =
        ((fun s3 a3 =>
          if s3 = s ∧ a3 = (if d.u < 1 - eps
              then (fun i => argmaxRow (Q i)) else d.assign) s
          then Q s ((if d.u < 1 - eps
                then (fun i => argmaxRow (Q i)) else d.assign) s)
            + α * (dot (m.phi (d.samp (m.T s ((if d.u < 1 - eps
                  then (fun i => argmaxRow (Q i)) else d.assign) s)))) w
              + γ * Q (d.samp (m.T s ((if d.u < 1 - eps
                    then (fun i => argmaxRow (Q i)) else d.assign) s)))
                  ((if d.u < 1 - eps
                    then (fun i => argmaxRow (Q i)) else d.assign)
                    (d.samp (m.T s ((if d.u < 1 - eps
                      then (fun i => argmaxRow (Q i)) else d.assign) s))))
              - Q s ((if d.u < 1 - eps
                  then (fun i => argmaxRow (Q i)) else d.assign) s))
          else Q s3 a3),
         d.samp (m.T s ((if d.u < 1 - eps
            then (fun i => argmaxRow (Q i)) else d.assign) s)))) ∧
    (∀ (w : Fin NP → ℚ) (f t : ℕ) (Q : Fin (ns + 1) → Fin (na + 1) → ℚ) s,
      qEpisode m w γ α eps draws (f + 1) t Q s
        = if m.is_terminal s then some (Q, t)
          else qEpisode m w γ α eps draws f (t + 1)
            (qStep m w γ α eps Q s (draws t)).1
            (qStep m w γ α eps Q s (draws t)).2) ∧
    (tasks.length = npertask * Ntrain) ∧
    (q_learning m e γ α eps β Q0 tasks draws fuel
      = (qEpisodes m γ α eps draws fuel tasks 0 (qInit m Q0)).map
          (fun p => (p.1, fun s => softmaxWith e (fun a => β * p.1 s a)))) := by
  refine ⟨fun w Q s d => rfl, fun w f t Q s => rfl, ?_, rfl⟩
  rw [hperm.length_eq]
  simp [trainTasksBase, List.length_flatten, List.map_replicate,
    List.sum_replicate, List.length_finRange, smul_eq_mul]

/-- Witness for `q_learning_step_spec`: one training task run once, episode
list `[0]`. -/
theorem q_learning_step_spec_witness :
    (([0] : List (Fin 1)).Perm (trainTasksBase 1 1)) ∧
    ([0] : List (Fin 1)).length = 1 * 1 :=
  ⟨by decide,
   (q_learning_step_spec trainChainModel (fun _ => 1) (9/10) (1/10) (1/10) 1
     (fun _ _ => 0) [0] (fun _ => ⟨fun _ => 0, 1/2, fun _ => 1⟩) 2 1
     (by decide)).2.2.1⟩

/-- Every terminal state's Q row is zero. -/
def zeroAtTerminals {NS NA NP Ntrain : ℕ} (m : Model NS NA NP Ntrain)
    (Q : Fin NS → Fin NA → ℚ) : Prop :=
  ∀ s, m.is_terminal s = true → ∀ a, Q s a = 0

theorem qStep_preserves_zero {NS na NP Ntrain : ℕ}
    (m : Model NS (na + 1) NP Ntrain) (w : Fin NP → ℚ) (γ α eps : ℚ)
    (Q : Fin NS → Fin (na + 1) → ℚ) (s : Fin NS) (d : QDraw NS (na + 1))
    (hs : m.is_terminal s = false) (hQ : zeroAtTerminals m Q) :
    zeroAtTerminals m (qStep m w γ α eps Q s d).1 := by
  intro s3 hs3 a3
  simp only [qStep]
  by_cases h : s3 = s ∧ a3 = (if d.u < 1 - eps
      then (fun i => argmaxRow (Q i)) else d.assign) s
  · exfalso
    rw [h.1, hs] at hs3
    exact Bool.false_ne_true hs3
  · rw [if_neg h]
    exact hQ s3 hs3 a3

theorem qEpisode_preserves_zero {NS na NP Ntrain : ℕ}
    (m : Model NS (na + 1) NP Ntrain) (w : Fin NP → ℚ) (γ α eps : ℚ)
    (draws : ℕ → QDraw NS (na + 1)) :
    ∀ (fuel t : ℕ) (Q : Fin NS → Fin (na + 1) → ℚ) (s : Fin NS) out,
      zeroAtTerminals m Q →
      qEpisode m w γ α eps draws fuel t Q s = some out →
      zeroAtTerminals m out.1 := by
  intro fuel
  induction fuel with
  | zero =>
    intro t Q s out hQ hrun
    rw [qEpisode] at hrun
    by_cases h : m.is_terminal s
    · rw [if_pos h] at hrun
      injection hrun with hrun
      rw [← hrun]
      exact hQ
    · rw [if_neg h] at hrun
      exact absurd hrun (by simp)
  | succ fuel ih =>
    intro t Q s out hQ hrun
    rw [qEpisode] at hrun
    by_cases h : m.is_terminal s
    · rw [if_pos h] at hrun
      injection hrun with hrun
      rw [← hrun]
      exact hQ
    · rw [if_neg h] at hrun
      have hs : m.is_terminal s = false := by
        cases hb : m.is_terminal s
        · rfl
        · exact absurd hb h
      exact ih (t + 1) _ _ out
        (qStep_preserves_zero m w γ α eps Q s (draws t) hs hQ) hrun

theorem qEpisodes_preserves_zero {ns na NP Ntrain : ℕ}
    (m : Model (ns + 1) (na + 1) NP Ntrain) (γ α eps : ℚ)
    (draws : ℕ → QDraw (ns + 1) (na + 1)) (fuel : ℕ) :
    ∀ (tasks : List (Fin Ntrain)) (t : ℕ)
      (Q : Fin (ns + 1) → Fin (na + 1) → ℚ) out,
      zeroAtTerminals m Q →
      qEpisodes m γ α eps draws fuel tasks t Q = some out →
      zeroAtTerminals m out.1 := by
  intro tasks
  induction tasks with
  | nil =>
    intro t Q out hQ hrun
    rw [qEpisodes] at hrun
    injection hrun with hrun
    rw [← hrun]
    exact hQ
  | cons k ks ih =>
    intro t Q out hQ hrun
    rw [qEpisodes] at hrun
    rcases hbind : qEpisode m (m.Wtrain k) γ α eps draws fuel t Q 0 with _ | p
    · rw [hbind] at hrun
      exact absurd hrun (by simp)
    · rw [hbind] at hrun
      simp only [Option.some_bind] at hrun
      exact ih p.2 p.1 out
        (qEpisode_preserves_zero m (m.Wtrain k) γ α eps draws fuel t Q 0 p hQ
          hbind) hrun

/-- Claim C10: throughout `q_learning`, every terminal state's Q row is
zero: it is zeroed at initialization, the episode-loop update (applied
only at a non-terminal current state) never writes a terminal row, any
bootstrap from a terminal successor contributes `gamma * 0`, and the
returned `pi` is uniform (`1 / NA`) over actions at every terminal
state. -/
theorem q_learning_terminal_rows_zero {ns na NP Ntrain : ℕ}
    (m : Model (ns + 1) (na + 1) NP Ntrain) (e : ℚ → ℚ) (γ α eps β : ℚ)
    (Q0 : Fin (ns + 1) → Fin (na + 1) → ℚ) (tasks : List (Fin Ntrain))
    (draws : ℕ → QDraw (ns + 1) (na + 1)) (fuel : ℕ) (he : e 0 ≠ 0) :
    (zeroAtTerminals m (qInit m Q0)) ∧
    (∀ (w : Fin NP → ℚ) Q s d, m.is_terminal s = false →
      zeroAtTerminals m Q →
      zeroAtTerminals m (qStep m w γ α eps Q s d).1) ∧
    (∀ (Q : Fin (ns + 1) → Fin (na + 1) → ℚ) s2,
      zeroAtTerminals m Q → m.is_terminal s2 = true →
      ∀ a2, γ * Q s2 a2 = γ * 0) ∧
    ((q_learning m e γ α eps β Q0 tasks draws fuel).elim True (fun p =>
      zeroAtTerminals m p.1 ∧
      ∀ s, m.is_terminal s = true → ∀ a, p.2 s a = 1 / ((na : ℚ) + 1))) := by
  have hinit : zeroAtTerminals m (qInit m Q0) := by
    intro s hs a
    simp [qInit, hs]
  refine ⟨hinit,
    fun w Q s d hs hQ => qStep_preserves_zero m w γ α eps Q s d hs hQ,
    fun Q s2 hQ hs2 a2 => by rw [hQ s2 hs2 a2],
    ?_⟩
  rcases hrun : qEpisodes m γ α eps draws fuel tasks 0 (qInit m Q0) with _ | p
  · simp [q_learning, hrun]
  · have hZ : zeroAtTerminals m p.1 :=
      qEpisodes_preserves_zero m γ α eps draws fuel tasks 0 (qInit m Q0) p
        hinit hrun
    have hq : q_learning m e γ α eps β Q0 tasks draws fuel
        = some (p.1, fun s => softmaxWith e (fun a => β * p.1 s a)) := by
      rw [q_learning, hrun, Option.map_some']
    rw [hq]
    refine ⟨hZ, fun s hs a => ?_⟩
    have hrow : ∀ a2 : Fin (na + 1), β * p.1 s a2 = 0 := by
      intro a2
      rw [hZ s hs a2, mul_zero]
    show softmaxWith e (fun a2 => β * p.1 s a2) a = 1 / ((na : ℚ) + 1)
    rw [softmaxWith]
    simp only [hrow]
    rw [Finset.sum_const, Finset.card_univ, Fintype.card_fin, nsmul_eq_mul]
    rw [div_mul_eq_div_div_swap, div_self he]
    push_cast
    ring

/-- Witness for `q_learning_terminal_rows_zero` on `trainChainModel`. -/
theorem q_learning_terminal_rows_zero_witness :
    ((fun _ : ℚ => (1 : ℚ)) 0 ≠ 0) ∧
    zeroAtTerminals trainChainModel
      (qInit trainChainModel (fun _ _ => 1/3)) :=
  ⟨by norm_num,
   (q_learning_terminal_rows_zero trainChainModel (fun _ => 1) (9/10) (1/10)
     (1/10) 1 (fun _ _ => 1/3) [0] (fun _ => ⟨fun _ => 0, 1/2, fun _ => 1⟩) 2
     (by norm_num)).1⟩

end MTRL
